import Mathlib

/-!
Verification of the grouped-comparison statistical testing engine in
`npstat.py`.

The engine works over a pandas DataFrame; we embed a DataFrame as a list of
rows, each row an association list from field names to rational values
(categorical labels are also embedded as rationals, which is faithful for
everything the engine does with them: equality comparison and first-seen
deduplication).  The scipy statistic computations (`mannwhitneyu`, `kruskal`,
`f_oneway`) are external library calls; they are embedded as function
parameters returning `Option (ℚ × ℚ)`, where `none` models the scipy call
raising an exception and `some (s, p)` models it returning a
(statistic, p-value) pair.  A raised Python exception is modelled by the
`Except` error monad: `Err.statError` for a scipy failure, `Err.keyError`
for the `KeyError` raised by indexing a dict at a missing key.

Python dicts preserve insertion order (overwriting a key keeps its
position); `odFind` / `odInsert` embed ordered-dict lookup and assignment
on association lists.
-/

namespace NPStat

/-- A (statistic, p-value) pair as returned by a scipy test. -/
abbrev Stat := ℚ × ℚ

/-- A record: association list from field name to value. -/
abbrev Row := List (String × ℚ)

/-- A dataset: ordered collection of records. -/
abbrev DataFrame := List Row

/-- Field access `row[field]`; fields are assumed present (spec
precondition), a missing field reads as 0. -/
def rowVal (r : Row) (f : String) : ℚ :=
  match r.find? (fun p => decide (p.1 = f)) with
  | some p => p.2
  | none => 0

/-- First-seen-order deduplication, as computed by pandas
`Series.unique()`; `seen` accumulates the values already emitted. -/
def uniqueAux : List ℚ → List ℚ → List ℚ
  | _, [] => []
  | seen, x :: xs => if x ∈ seen then uniqueAux seen xs else x :: uniqueAux (x :: seen) xs

/-- Embeds `df[f].unique()`: the distinct values of column `f` in
first-seen order. -/
def colUnique (df : DataFrame) (f : String) : List ℚ :=
  uniqueAux [] (df.map (fun r => rowVal r f))

/-- Embeds `df[df[catf] == c][varf]`: the `varf` values of the rows whose
`catf` value is `c`. -/
def groupVals (df : DataFrame) (catf : String) (c : ℚ) (varf : String) : List ℚ :=
  (df.filter (fun r => decide (rowVal r catf = c))).map (fun r => rowVal r varf)

/-- Ordered-dict lookup on an association list (`d[k]` when present). -/
def odFind {κ α : Type} [DecidableEq κ] : List (κ × α) → κ → Option α
  | [], _ => none
  | p :: rest, k => if p.1 = k then some p.2 else odFind rest k

/-- Ordered-dict assignment `d[k] = a`: overwrite in place when the key is
present, append at the end otherwise (Python dict semantics). -/
def odInsert {κ α : Type} [DecidableEq κ] : List (κ × α) → κ → α → List (κ × α)
  | [], k, a => [(k, a)]
  | p :: rest, k, a => if p.1 = k then (k, a) :: rest else p :: odInsert rest k a

/-- The nested results dict built by the two rank tests:
categorical field → (numerical field → Stat). -/
abbrev Results := List (String × List (String × Stat))

/-- Embeds `if cat_var not in results: results[cat_var] = dict()` followed
by `results[cat_var][var] = st`. -/
def dictInsert2 (res : Results) (cat var : String) (st : Stat) : Results :=
  odInsert res cat (odInsert ((odFind res cat).getD []) var st)

/-- Errors a run can raise: a scipy statistic call failing, or the
`KeyError` of indexing `results[cat_var]` at a missing key. -/
inductive Err : Type
  | keyError : Err
  | statError : Err
deriving DecidableEq

instance exceptDecEq {ε α : Type} [DecidableEq ε] [DecidableEq α] :
    DecidableEq (Except ε α) := fun x y =>
  match x, y with
  | .ok a, .ok b =>
    if h : a = b then .isTrue (by rw [h]) else .isFalse (fun hq => h (Except.ok.inj hq))
  | .ok _, .error _ => .isFalse (fun hq => Except.noConfusion hq)
  | .error _, .ok _ => .isFalse (fun hq => Except.noConfusion hq)
  | .error e, .error f =>
    if h : e = f then .isTrue (by rw [h]) else .isFalse (fun hq => h (Except.error.inj hq))

/-- Compound row key of the rank-test result tables. -/
abbrev Key := String × String

/-- A result table: rows keyed by field pair; `none` models a row whose
entries are NaN (the `.get(variable, dict())` default). -/
abbrev Table (κ : Type) := List (κ × Option Stat)

/-- The rational value of the source literal `0.05`, stored in lowest
terms (1/20) so that kernel evaluation reduces; `pointZeroFive_eq` below
relates it to `1 / 20`. -/
def pointZeroFive : ℚ := ⟨1, 20, by decide, by decide⟩

theorem pointZeroFive_eq : pointZeroFive = 1 / 20 := by
  have h := Rat.num_div_den pointZeroFive
  rw [← h]
  norm_num [pointZeroFive]

/-- Embeds `highlight_significant` from the source: yellow background
when the cell value is below 0.05, empty style otherwise. -/
def highlight_significant (val : ℚ) : String :=
  if val < pointZeroFive then "background-color: yellow" else ""

/-- Style of a row's p-value cell; a NaN cell (`none`) compares false
against 0.05 and gets the empty style. -/
def rowStyle (v : Option Stat) : String :=
  match v with
  | some (_, p) => highlight_significant p
  | none => ""

/-- A styled table: the underlying data plus the per-row style string of
the p-value column (the only column `.style.map` is applied to). -/
structure Styled (κ : Type) where
  data : Table κ
  pStyles : List (κ × String)
deriving DecidableEq

/-- Embeds `results_df.style.map(highlight_significant,
subset=pd.IndexSlice[:, 'p-value'])`: attaches a style to each row's
p-value cell, leaving the data untouched. -/
def styleTable {κ : Type} (t : Table κ) : Styled κ :=
  ⟨t, t.map (fun kv => (kv.1, rowStyle kv.2))⟩

/-- Style that `.style.map` attaches to cell `(k, col)` of table `t`:
only cells of the `p-value` column are passed to
`highlight_significant`, every other cell keeps the empty style. -/
def cellStyle {κ : Type} [DecidableEq κ] (t : Table κ) (k : κ) (col : String) : String :=
  if col = "p-value" then
    match odFind t k with
    | some v => rowStyle v
    | none => ""
  else ""

/-- Inner loop of `mann_whitney_test`: for each numerical variable,
recompute the distinct categories; when there are exactly two, run the
Mann–Whitney U call on the two groups and store the result. -/
def mwVars (mwu : List ℚ → List ℚ → Option Stat) (df : DataFrame) (cat : String) :
    List String → Results → Except Err Results
  | [], res => .ok res
  | var :: rest, res =>
    match colUnique df cat with
    | [c1, c2] =>
      match mwu (groupVals df cat c1 var) (groupVals df cat c2 var) with
      | some st => mwVars mwu df cat rest (dictInsert2 res cat var st)
      | none => .error .statError
    | _ => mwVars mwu df cat rest res

/-- Outer loop of `mann_whitney_test` over the categorical variables. -/
def mwCats (mwu : List ℚ → List ℚ → Option Stat) (df : DataFrame) :
    List String → List String → Results → Except Err Results
  | [], _, res => .ok res
  | cat :: rest, nums, res =>
    match mwVars mwu df cat nums res with
    | .ok r => mwCats mwu df rest nums r
    | .error e => .error e

/-- One categorical field's slice of the `pd.DataFrame({(cat_var, variable):
results[cat_var].get(variable, dict()) ...})` comprehension: indexes
`results[cat_var]` for every enumerated pair (KeyError when absent) and
fills the row with the inner dict's entry for the variable. -/
def buildRow (results : Results) (cat : String) :
    List String → Table Key → Except Err (Table Key)
  | [], acc => .ok acc
  | var :: rest, acc =>
    match odFind results cat with
    | some inner => buildRow results cat rest (odInsert acc (cat, var) (odFind inner var))
    | none => .error .keyError

/-- The full table-construction comprehension: categorical fields in
caller order, numerical fields nested in caller order. -/
def buildTable (results : Results) :
    List String → List String → Table Key → Except Err (Table Key)
  | [], _, acc => .ok acc
  | cat :: rest, nums, acc =>
    match buildRow results cat nums acc with
    | .ok acc2 => buildTable results rest nums acc2
    | .error e => .error e

/-- Embeds `mann_whitney_test(df, categorical_vars, numerical_variable)`;
`mwu` is the external `scipy.stats.mannwhitneyu(..., alternative='two-sided')`. -/
def mann_whitney_test (mwu : List ℚ → List ℚ → Option Stat) (df : DataFrame)
    (categorical_vars numerical_variable : List String) : Except Err (Styled Key) :=
  match mwCats mwu df categorical_vars numerical_variable [] with
  | .error e => .error e
  | .ok results =>
    match buildTable results categorical_vars numerical_variable [] with
    | .error e => .error e
    | .ok t => .ok (styleTable t)

/-- Inner loop of `kruskal_wallis_test` over the numerical variables of a
categorical field whose distinct categories are `cs`. -/
def kwVars (kr : List (List ℚ) → Option Stat) (df : DataFrame) (cat : String) (cs : List ℚ) :
    List String → Results → Except Err Results
  | [], res => .ok res
  | var :: rest, res =>
    match kr (cs.map (fun c => groupVals df cat c var)) with
    | some st => kwVars kr df cat cs rest (dictInsert2 res cat var st)
    | none => .error .statError

/-- Outer loop of `kruskal_wallis_test`: fields with fewer than three
distinct values are skipped entirely. -/
def kwCats (kr : List (List ℚ) → Option Stat) (df : DataFrame) :
    List String → List String → Results → Except Err Results
  | [], _, res => .ok res
  | cat :: rest, nums, res =>
    if 3 ≤ (colUnique df cat).length then
      match kwVars kr df cat (colUnique df cat) nums res with
      | .ok r => kwCats kr df rest nums r
      | .error e => .error e
    else kwCats kr df rest nums res

/-- Result of `kruskal_wallis_test`: a styled table (the `if results:`
branch) or the bare empty `pd.DataFrame()` of the else branch. -/
inductive KWResult : Type
  | styled : Styled Key → KWResult
  | emptyDf : KWResult
deriving DecidableEq

/-- Embeds `kruskal_wallis_test(df, categorical_vars, numerical_variable)`;
`kr` is the external `scipy.stats.kruskal`. -/
def kruskal_wallis_test (kr : List (List ℚ) → Option Stat) (df : DataFrame)
    (categorical_vars numerical_variable : List String) : Except Err KWResult :=
  match kwCats kr df categorical_vars numerical_variable [] with
  | .error e => .error e
  | .ok results =>
    if results.isEmpty then .ok .emptyDf
    else
      match buildTable results categorical_vars numerical_variable [] with
      | .error e => .error e
      | .ok t => .ok (.styled (styleTable t))

/-- Loop of `anova` over the numerical variables: one `f_oneway` call per
variable, over the groups of the single categorical field. -/
def anovaVars (fow : List (List ℚ) → Option Stat) (data : DataFrame)
    (categorical_variable : String) :
    List String → List (String × Stat) → Except Err (List (String × Stat))
  | [], res => .ok res
  | var :: rest, res =>
    match fow ((colUnique data categorical_variable).map
        (fun c => groupVals data categorical_variable c var)) with
    | some st => anovaVars fow data categorical_variable rest (odInsert res var st)
    | none => .error .statError

/-- Embeds `anova(data, numerical_variable, categorical_variable)`;
`fow` is the external `scipy.stats.f_oneway`. -/
def anova (fow : List (List ℚ) → Option Stat) (data : DataFrame)
    (numerical_variable : List String) (categorical_variable : String) :
    Except Err (Styled String) :=
  match anovaVars fow data categorical_variable numerical_variable [] with
  | .ok res => .ok (styleTable (res.map (fun p => (p.1, some p.2))))
  | .error e => .error e

/-! Section: Ordered-dict lemmas -/

theorem isSome_eq_some_getD {α : Type} (o : Option α) (d : α) (h : o.isSome) :
    o = some (o.getD d) := by
  cases o with
  | none => simp at h
  | some a => rfl

theorem odFind_odInsert_self {κ α : Type} [DecidableEq κ] (d : List (κ × α)) (k : κ) (a : α) :
    odFind (odInsert d k a) k = some a := by
  induction d with
  | nil => simp [odInsert, odFind]
  | cons p rest ih =>
    by_cases h : p.1 = k
    · simp [odInsert, odFind, h]
    · simp [odInsert, odFind, h, ih]

theorem odFind_odInsert_ne {κ α : Type} [DecidableEq κ] (d : List (κ × α)) (k k' : κ) (a : α)
    (h : k' ≠ k) : odFind (odInsert d k a) k' = odFind d k' := by
  have hkk : ¬(k = k') := fun hq => h hq.symm
  induction d with
  | nil => simp [odInsert, odFind, hkk]
  | cons p rest ih =>
    by_cases hp : p.1 = k
    · simp [odInsert, odFind, hp, hkk]
    · by_cases hp' : p.1 = k'
      · simp [odInsert, odFind, hp, hp', h]
      · simp [odInsert, odFind, hp, hp', ih]

theorem odInsert_odInsert_self {κ α : Type} [DecidableEq κ] (d : List (κ × α)) (k : κ) (a b : α) :
    odInsert (odInsert d k a) k b = odInsert d k b := by
  induction d with
  | nil => simp [odInsert]
  | cons p rest ih =>
    by_cases h : p.1 = k
    · simp [odInsert, h]
    · simp [odInsert, h, ih]

theorem odInsert_of_find_none {κ α : Type} [DecidableEq κ] (d : List (κ × α)) (k : κ) (a : α)
    (h : odFind d k = none) : odInsert d k a = d ++ [(k, a)] := by
  induction d with
  | nil => simp [odInsert]
  | cons p rest ih =>
    by_cases hp : p.1 = k
    · simp [odFind, hp] at h
    · simp [odFind, hp] at h
      simp [odInsert, hp, ih h]

theorem odFind_isSome_odInsert {κ α : Type} [DecidableEq κ] (d : List (κ × α)) (k k' : κ) (a : α)
    (h : (odFind d k').isSome) : (odFind (odInsert d k a) k').isSome := by
  by_cases hk : k' = k
  · rw [hk, odFind_odInsert_self]; rfl
  · rw [odFind_odInsert_ne d k k' a hk]; exact h

/-! Section: Pure companions of the test loops

When every external statistic call succeeds, the `Except`-valued loops
compute the same nested dict as the following pure folds; the lemmas
below characterise those folds. -/

/-- Fold of a per-variable statistic into an inner dict, in caller order. -/
def innerFold (f : String → Stat) : List String → List (String × Stat) → List (String × Stat)
  | [], d => d
  | v :: rest, d => innerFold f rest (odInsert d v (f v))

/-- Fold of one categorical field's inner loop into the nested dict. -/
def innerFoldRes (f : String → String → Stat) (cat : String) :
    List String → Results → Results
  | [], res => res
  | v :: rest, res => innerFoldRes f cat rest (dictInsert2 res cat v (f cat v))

/-- Fold of the full cardinality-gated double loop into the nested dict. -/
def resFold (cond : String → Bool) (f : String → String → Stat) :
    List String → List String → Results → Results
  | [], _, res => res
  | cat :: rest, nums, res =>
    if cond cat then resFold cond f rest nums (innerFoldRes f cat nums res)
    else resFold cond f rest nums res

theorem innerFold_find (f : String → Stat) (nums : List String)
    (d : List (String × Stat)) (v : String) :
    odFind (innerFold f nums d) v = if v ∈ nums then some (f v) else odFind d v := by
  induction nums generalizing d with
  | nil => simp [innerFold]
  | cons h rest ih =>
    by_cases hv : v = h
    · subst hv
      by_cases hm : v ∈ rest
      · simp [innerFold, ih, hm]
      · simp [innerFold, ih, hm, odFind_odInsert_self]
    · by_cases hm : v ∈ rest
      · simp [innerFold, ih, hm, hv]
      · simp [innerFold, ih, hm, hv, odFind_odInsert_ne d h v (f h) hv]

theorem innerFold_append (f : String → Stat) (nums : List String)
    (d : List (String × Stat)) (hnd : nums.Nodup)
    (hfresh : ∀ v ∈ nums, odFind d v = none) :
    innerFold f nums d = d ++ nums.map (fun v => (v, f v)) := by
  induction nums generalizing d with
  | nil => simp [innerFold]
  | cons h rest ih =>
    have hh : odFind d h = none := hfresh h (by simp)
    have hstep : odInsert d h (f h) = d ++ [(h, f h)] := odInsert_of_find_none d h (f h) hh
    have hnd' : rest.Nodup := (List.nodup_cons.mp hnd).2
    have hhm : h ∉ rest := (List.nodup_cons.mp hnd).1
    have hfresh' : ∀ v ∈ rest, odFind (d ++ [(h, f h)]) v = none := by
      intro v hv
      have hne : v ≠ h := fun hq => hhm (hq ▸ hv)
      rw [← hstep, odFind_odInsert_ne d h v (f h) hne]
      exact hfresh v (by simp [hv])
    calc innerFold f (h :: rest) d = innerFold f rest (odInsert d h (f h)) := rfl
      _ = innerFold f rest (d ++ [(h, f h)]) := by rw [hstep]
      _ = (d ++ [(h, f h)]) ++ rest.map (fun v => (v, f v)) := ih _ hnd' hfresh'
      _ = d ++ (h :: rest).map (fun v => (v, f v)) := by simp

theorem innerFoldRes_closed (f : String → String → Stat) (cat : String)
    (nums : List String) (res : Results) (hn : nums ≠ []) :
    innerFoldRes f cat nums res =
      odInsert res cat (innerFold (f cat) nums ((odFind res cat).getD [])) := by
  induction nums generalizing res with
  | nil => exact absurd rfl hn
  | cons v rest ih =>
    by_cases hr : rest = []
    · subst hr
      simp [innerFoldRes, dictInsert2, innerFold]
    · have hstep : innerFoldRes f cat (v :: rest) res
          = innerFoldRes f cat rest (dictInsert2 res cat v (f cat v)) := rfl
      rw [hstep, ih _ hr]
      have hfind : odFind (dictInsert2 res cat v (f cat v)) cat
          = some (odInsert ((odFind res cat).getD []) v (f cat v)) := by
        unfold dictInsert2
        exact odFind_odInsert_self _ _ _
      rw [hfind]
      unfold dictInsert2
      rw [odInsert_odInsert_self]
      rfl

theorem innerFoldRes_find_ne (f : String → String → Stat) (cat : String)
    (nums : List String) (res : Results) (c : String) (hc : c ≠ cat) :
    odFind (innerFoldRes f cat nums res) c = odFind res c := by
  cases nums with
  | nil => rfl
  | cons v rest =>
    rw [innerFoldRes_closed f cat (v :: rest) res (by simp)]
    exact odFind_odInsert_ne res cat c _ hc

theorem innerFoldRes_find_self (f : String → String → Stat) (cat : String)
    (nums : List String) (res : Results) (hn : nums ≠ []) :
    odFind (innerFoldRes f cat nums res) cat
      = some (innerFold (f cat) nums ((odFind res cat).getD [])) := by
  rw [innerFoldRes_closed f cat nums res hn]
  exact odFind_odInsert_self _ _ _

theorem resFold_nums_nil (cond : String → Bool) (f : String → String → Stat)
    (cats : List String) (res : Results) :
    resFold cond f cats [] res = res := by
  induction cats generalizing res with
  | nil => rfl
  | cons cat rest ih =>
    by_cases hc : cond cat
    · simp [resFold, hc, innerFoldRes, ih]
    · simp [resFold, hc, ih]

theorem resFold_find_cond_false (cond : String → Bool) (f : String → String → Stat)
    (nums : List String) (c : String) (hc : cond c = false) :
    ∀ (cats : List String) (res : Results),
      odFind (resFold cond f cats nums res) c = odFind res c := by
  intro cats
  induction cats with
  | nil => intro res; rfl
  | cons cat rest ih =>
    intro res
    by_cases hcat : cond cat
    · have hne : c ≠ cat := by
        intro hq
        rw [hq, hcat] at hc
        exact Bool.noConfusion hc
      simp only [resFold, hcat, if_true]
      rw [ih _, innerFoldRes_find_ne f cat nums res c hne]
    · simp only [resFold, hcat, if_false]
      exact ih res

theorem resFold_find_not_mem (cond : String → Bool) (f : String → String → Stat)
    (nums : List String) (c : String) :
    ∀ (cats : List String) (res : Results), c ∉ cats →
      odFind (resFold cond f cats nums res) c = odFind res c := by
  intro cats
  induction cats with
  | nil => intro res _; rfl
  | cons cat rest ih =>
    intro res hc
    have hne : c ≠ cat := fun hq => hc (by simp [hq])
    have hrest : c ∉ rest := fun hq => hc (by simp [hq])
    by_cases hcat : cond cat
    · simp only [resFold, hcat, if_true]
      rw [ih _ hrest, innerFoldRes_find_ne f cat nums res c hne]
    · simp only [resFold, hcat, if_false]
      exact ih res hrest

theorem resFold_preserves_isSome (cond : String → Bool) (f : String → String → Stat)
    (nums : List String) (c : String) :
    ∀ (cats : List String) (res : Results), (odFind res c).isSome →
      (odFind (resFold cond f cats nums res) c).isSome := by
  intro cats
  induction cats with
  | nil => intro res h; exact h
  | cons cat rest ih =>
    intro res h
    by_cases hcat : cond cat
    · simp only [resFold, hcat, if_true]
      apply ih
      cases nums with
      | nil => exact h
      | cons v vr =>
        rw [innerFoldRes_closed f cat (v :: vr) res (by simp)]
        exact odFind_isSome_odInsert res cat c _ h
    · simp only [resFold, hcat, if_false]
      exact ih res h

theorem resFold_find_isSome (cond : String → Bool) (f : String → String → Stat)
    (nums : List String) (c : String) (hcond : cond c = true) (hn : nums ≠ []) :
    ∀ (cats : List String) (res : Results), c ∈ cats →
      (odFind (resFold cond f cats nums res) c).isSome := by
  intro cats
  induction cats with
  | nil => intro res hc; simp at hc
  | cons cat rest ih =>
    intro res hc
    by_cases hceq : c = cat
    · subst hceq
      simp only [resFold, hcond, if_true]
      apply resFold_preserves_isSome
      rw [innerFoldRes_find_self f c nums res hn]
      rfl
    · have hcr : c ∈ rest := by
        rcases List.mem_cons.mp hc with hq | hq
        · exact absurd hq hceq
        · exact hq
      by_cases hcat : cond cat
      · simp only [resFold, hcat, if_true]
        exact ih _ hcr
      · simp only [resFold, hcat, if_false]
        exact ih res hcr

theorem resFold_find_some (cond : String → Bool) (f : String → String → Stat)
    (nums : List String) (c : String) (hcond : cond c = true) (hn : nums ≠ []) :
    ∀ (cats : List String) (res : Results), cats.Nodup → c ∈ cats →
      odFind res c = none →
      odFind (resFold cond f cats nums res) c = some (innerFold (f c) nums []) := by
  intro cats
  induction cats with
  | nil => intro res _ hc _; simp at hc
  | cons cat rest ih =>
    intro res hnd hc hres
    have hnd' : rest.Nodup := (List.nodup_cons.mp hnd).2
    by_cases hceq : c = cat
    · subst hceq
      have hcm : c ∉ rest := (List.nodup_cons.mp hnd).1
      simp only [resFold, hcond, if_true]
      rw [resFold_find_not_mem cond f nums c rest _ hcm]
      rw [innerFoldRes_find_self f c nums res hn, hres]
      rfl
    · have hcr : c ∈ rest := by
        rcases List.mem_cons.mp hc with hq | hq
        · exact absurd hq hceq
        · exact hq
      by_cases hcat : cond cat
      · simp only [resFold, hcat, if_true]
        apply ih _ hnd' hcr
        rw [innerFoldRes_find_ne f cat nums res c hceq]
        exact hres
      · simp only [resFold, hcat, if_false]
        exact ih res hnd' hcr hres

/-! Section: The Except-valued loops agree with the pure folds when every
external statistic call succeeds -/

/-- The `len(categories) == 2` gate of `mann_whitney_test`. -/
def mwCond (df : DataFrame) (cat : String) : Bool :=
  decide ((colUnique df cat).length = 2)

/-- The statistic `mann_whitney_test` stores for an eligible pair:
the Mann–Whitney call on the two groups. -/
def mwF (mwu : List ℚ → List ℚ → Option Stat) (df : DataFrame) (cat v : String) : Stat :=
  match colUnique df cat with
  | [c1, c2] => (mwu (groupVals df cat c1 v) (groupVals df cat c2 v)).getD (0, 0)
  | _ => (0, 0)

/-- The `len(categories) >= 3` gate of `kruskal_wallis_test`. -/
def kwCond (df : DataFrame) (cat : String) : Bool :=
  decide (3 ≤ (colUnique df cat).length)

/-- The statistic `kruskal_wallis_test` stores for an eligible pair:
the Kruskal call on all groups of the field. -/
def kwF (kr : List (List ℚ) → Option Stat) (df : DataFrame) (cat v : String) : Stat :=
  (kr ((colUnique df cat).map (fun c => groupVals df cat c v))).getD (0, 0)

/-- The statistic `anova` stores for a numerical variable:
the `f_oneway` call on all groups of the categorical field. -/
def aF (fow : List (List ℚ) → Option Stat) (data : DataFrame) (catv v : String) : Stat :=
  (fow ((colUnique data catv).map (fun c => groupVals data catv c v))).getD (0, 0)

theorem mwVars_not_two (mwu : List ℚ → List ℚ → Option Stat) (df : DataFrame)
    (cat : String) (nums : List String) (res : Results)
    (h2 : (colUnique df cat).length ≠ 2) :
    mwVars mwu df cat nums res = .ok res := by
  induction nums with
  | nil => rfl
  | cons v rest ih =>
    rw [mwVars]
    split
    · rename_i c1 c2 hcu
      rw [hcu] at h2
      simp at h2
    · exact ih

theorem mwVars_two (mwu : List ℚ → List ℚ → Option Stat) (df : DataFrame)
    (cat : String) (nums : List String) (res : Results) (c1 c2 : ℚ)
    (hcu : colUnique df cat = [c1, c2]) (hm : ∀ a b, (mwu a b).isSome) :
    mwVars mwu df cat nums res = .ok (innerFoldRes (mwF mwu df) cat nums res) := by
  induction nums generalizing res with
  | nil => rfl
  | cons v rest ih =>
    obtain ⟨st, hst⟩ := Option.isSome_iff_exists.mp
      (hm (groupVals df cat c1 v) (groupVals df cat c2 v))
    have hf : mwF mwu df cat v = st := by
      unfold mwF
      rw [hcu]
      simp [hst]
    rw [mwVars]
    simp only [hcu, hst]
    rw [ih]
    simp only [innerFoldRes, hf]

theorem mwCats_pure (mwu : List ℚ → List ℚ → Option Stat) (df : DataFrame)
    (cats nums : List String) (res : Results) (hm : ∀ a b, (mwu a b).isSome) :
    mwCats mwu df cats nums res = .ok (resFold (mwCond df) (mwF mwu df) cats nums res) := by
  induction cats generalizing res with
  | nil => rfl
  | cons cat rest ih =>
    by_cases h2 : (colUnique df cat).length = 2
    · obtain ⟨c1, c2, hcu⟩ := List.length_eq_two.mp h2
      rw [mwCats, mwVars_two mwu df cat nums res c1 c2 hcu hm]
      have hcond : mwCond df cat = true := by simp [mwCond, h2]
      simp only [resFold, hcond, if_true]
      exact ih _
    · rw [mwCats, mwVars_not_two mwu df cat nums res h2]
      have hcond : mwCond df cat = false := by simp [mwCond, h2]
      simp only [resFold, hcond, if_false]
      exact ih _

theorem kwVars_pure (kr : List (List ℚ) → Option Stat) (df : DataFrame)
    (cat : String) (nums : List String) (res : Results)
    (hk : ∀ g, (kr g).isSome) :
    kwVars kr df cat (colUnique df cat) nums res
      = .ok (innerFoldRes (kwF kr df) cat nums res) := by
  induction nums generalizing res with
  | nil => rfl
  | cons v rest ih =>
    obtain ⟨st, hst⟩ := Option.isSome_iff_exists.mp
      (hk ((colUnique df cat).map (fun c => groupVals df cat c v)))
    have hf : kwF kr df cat v = st := by
      unfold kwF
      rw [hst]
      rfl
    rw [kwVars]
    simp only [hst]
    rw [ih]
    simp only [innerFoldRes, hf]

theorem kwCats_pure (kr : List (List ℚ) → Option Stat) (df : DataFrame)
    (cats nums : List String) (res : Results) (hk : ∀ g, (kr g).isSome) :
    kwCats kr df cats nums res = .ok (resFold (kwCond df) (kwF kr df) cats nums res) := by
  induction cats generalizing res with
  | nil => rfl
  | cons cat rest ih =>
    by_cases h3 : 3 ≤ (colUnique df cat).length
    · have hcond : kwCond df cat = true := by simp [kwCond, h3]
      rw [kwCats]
      simp only [h3, if_true]
      rw [kwVars_pure kr df cat nums res hk]
      simp only [resFold, hcond, if_true]
      exact ih _
    · have hcond : kwCond df cat = false := by simp [kwCond, h3]
      rw [kwCats]
      simp only [h3, if_false]
      simp only [resFold, hcond, if_false]
      exact ih _

theorem anovaVars_pure (fow : List (List ℚ) → Option Stat) (data : DataFrame)
    (catv : String) (nums : List String) (res : List (String × Stat))
    (hf : ∀ v ∈ nums,
      (fow ((colUnique data catv).map (fun c => groupVals data catv c v))).isSome) :
    anovaVars fow data catv nums res = .ok (innerFold (aF fow data catv) nums res) := by
  induction nums generalizing res with
  | nil => rfl
  | cons v rest ih =>
    obtain ⟨st, hst⟩ := Option.isSome_iff_exists.mp (hf v (by simp))
    have hfa : aF fow data catv v = st := by
      unfold aF
      rw [hst]
      rfl
    rw [anovaVars]
    simp only [hst]
    rw [ih _ (fun w hw => hf w (by simp [hw]))]
    simp only [innerFold, hfa]

/-! Section: Table construction lemmas -/

/-- The cross product of field pairs in caller order (categorical outer,
numerical inner), as enumerated by the table-building comprehension. -/
def crossPairs (cats nums : List String) : List Key :=
  match cats with
  | [] => []
  | c :: rest => nums.map (fun v => (c, v)) ++ crossPairs rest nums

/-- Closed form of the table built from a results dict covering all the
requested categorical fields. -/
def tableOf (results : Results) : List String → List String → Table Key
  | [], _ => []
  | c :: rest, nums =>
    nums.map (fun v => ((c, v), odFind ((odFind results c).getD []) v))
      ++ tableOf results rest nums

theorem crossPairs_nums_nil : ∀ cats : List String, crossPairs cats [] = [] := by
  intro cats
  induction cats with
  | nil => rfl
  | cons c rest ih => simp [crossPairs, ih]

theorem tableOf_map_fst (results : Results) (nums : List String) :
    ∀ cats : List String, (tableOf results cats nums).map Prod.fst = crossPairs cats nums := by
  intro cats
  induction cats with
  | nil => rfl
  | cons c rest ih => simp [tableOf, crossPairs, ih]

theorem tableOf_mem (results : Results) (nums : List String) :
    ∀ (cats : List String) (p : Key × Option Stat), p ∈ tableOf results cats nums →
      ∃ c ∈ cats, ∃ v ∈ nums, p = ((c, v), odFind ((odFind results c).getD []) v) := by
  intro cats
  induction cats with
  | nil => intro p hp; simp [tableOf] at hp
  | cons c rest ih =>
    intro p hp
    rw [tableOf] at hp
    rcases List.mem_append.mp hp with hq | hq
    · obtain ⟨v, hv, hpv⟩ := List.mem_map.mp hq
      exact ⟨c, by simp, v, hv, hpv.symm⟩
    · obtain ⟨c2, hc2, v, hv, hpv⟩ := ih p hq
      exact ⟨c2, by simp [hc2], v, hv, hpv⟩

theorem odFind_mem {κ α : Type} [DecidableEq κ] :
    ∀ (d : List (κ × α)) (k : κ) (a : α), odFind d k = some a → (k, a) ∈ d := by
  intro d
  induction d with
  | nil => intro k a h; simp [odFind] at h
  | cons p rest ih =>
    intro k a h
    rw [odFind] at h
    by_cases hp : p.1 = k
    · simp only [hp, if_true] at h
      have ha : a = p.2 := (Option.some.inj h).symm
      have hpk : p = (k, a) := by
        cases p
        simp only at hp ha
        rw [hp, ha]
      rw [← hpk]
      simp
    · simp only [hp, if_false] at h
      exact List.mem_cons_of_mem p (ih k a h)

theorem buildRow_error (results : Results) (cat : String) :
    ∀ (nums : List String) (acc : Table Key) (e : Err),
      buildRow results cat nums acc = .error e → e = .keyError := by
  intro nums
  induction nums with
  | nil => intro acc e h; simp [buildRow] at h
  | cons v rest ih =>
    intro acc e h
    rw [buildRow] at h
    cases hfind : odFind results cat with
    | some inner =>
      rw [hfind] at h
      exact ih _ e h
    | none =>
      rw [hfind] at h
      exact (Except.error.inj h).symm

theorem buildTable_error (results : Results) :
    ∀ (cats nums : List String) (acc : Table Key) (e : Err),
      buildTable results cats nums acc = .error e → e = .keyError := by
  intro cats
  induction cats with
  | nil => intro nums acc e h; simp [buildTable] at h
  | cons c rest ih =>
    intro nums acc e h
    rw [buildTable] at h
    cases hbr : buildRow results c nums acc with
    | ok acc2 =>
      rw [hbr] at h
      exact ih nums acc2 e h
    | error e2 =>
      rw [hbr] at h
      have he : e2 = e := Except.error.inj h
      rw [← he]
      exact buildRow_error results c nums acc e2 hbr

theorem buildTable_keyError (results : Results) (nums : List String) (c : String)
    (hn : nums ≠ []) (hfind : odFind results c = none) :
    ∀ (cats : List String) (acc : Table Key), c ∈ cats →
      buildTable results cats nums acc = .error .keyError := by
  intro cats
  induction cats with
  | nil => intro acc hc; simp at hc
  | cons cat rest ih =>
    intro acc hc
    by_cases hceq : c = cat
    · subst hceq
      cases nums with
      | nil => exact absurd rfl hn
      | cons v vr =>
        have hbr : buildRow results c (v :: vr) acc = .error .keyError := by
          rw [buildRow]
          simp only [hfind]
        rw [buildTable]
        simp only [hbr]
    · have hcr : c ∈ rest := by
        rcases List.mem_cons.mp hc with hq | hq
        · exact absurd hq hceq
        · exact hq
      rw [buildTable]
      cases hbr : buildRow results cat nums acc with
      | ok acc2 =>
        simp only [hbr]
        exact ih acc2 hcr
      | error e2 =>
        simp only [hbr]
        rw [buildRow_error results cat nums acc e2 hbr]

theorem buildRow_ok (results : Results) (cat : String) (inner : List (String × Stat))
    (hfind : odFind results cat = some inner) :
    ∀ (nums : List String) (acc : Table Key), nums.Nodup →
      (∀ v ∈ nums, odFind acc (cat, v) = none) →
      buildRow results cat nums acc
        = .ok (acc ++ nums.map (fun v => ((cat, v), odFind inner v))) := by
  intro nums
  induction nums with
  | nil => intro acc _ _; simp [buildRow]
  | cons v rest ih =>
    intro acc hnd hfresh
    have hins : odInsert acc (cat, v) (odFind inner v) = acc ++ [((cat, v), odFind inner v)] :=
      odInsert_of_find_none _ _ _ (hfresh v (by simp))
    have hfresh2 : ∀ w ∈ rest, odFind (odInsert acc (cat, v) (odFind inner v)) (cat, w) = none := by
      intro w hw
      have hne : (cat, w) ≠ (cat, v) := by
        intro hq
        have hwv : w = v := congrArg Prod.snd hq
        exact (List.nodup_cons.mp hnd).1 (hwv ▸ hw)
      rw [odFind_odInsert_ne _ _ _ _ hne]
      exact hfresh w (by simp [hw])
    rw [buildRow]
    simp only [hfind]
    rw [ih _ (List.nodup_cons.mp hnd).2 hfresh2, hins]
    simp

theorem buildTable_ok (results : Results) (nums : List String) (hnn : nums.Nodup) :
    ∀ (cats : List String) (acc : Table Key), cats.Nodup →
      (∀ c ∈ cats, (odFind results c).isSome) →
      (∀ p ∈ acc, p.1.1 ∉ cats) →
      buildTable results cats nums acc = .ok (acc ++ tableOf results cats nums) := by
  intro cats
  induction cats with
  | nil => intro acc _ _ _; simp [buildTable, tableOf]
  | cons cat rest ih =>
    intro acc hnd hsome haccfresh
    obtain ⟨inner, hinner⟩ := Option.isSome_iff_exists.mp (hsome cat (by simp))
    have hfresh : ∀ v ∈ nums, odFind acc (cat, v) = none := by
      intro v hv
      cases hfa : odFind acc (cat, v) with
      | none => rfl
      | some a =>
        have hmem := odFind_mem acc (cat, v) a hfa
        exact absurd (by simp : cat ∈ cat :: rest) (haccfresh _ hmem)
    have hbr := buildRow_ok results cat inner hinner nums acc hnn hfresh
    have hnd' : rest.Nodup := (List.nodup_cons.mp hnd).2
    have hcm : cat ∉ rest := (List.nodup_cons.mp hnd).1
    have hsome' : ∀ c ∈ rest, (odFind results c).isSome :=
      fun c hc => hsome c (by simp [hc])
    have haccfresh' : ∀ p ∈ acc ++ nums.map (fun v => ((cat, v), odFind inner v)),
        p.1.1 ∉ rest := by
      intro p hp
      rcases List.mem_append.mp hp with hq | hq
      · intro hmem
        exact haccfresh p hq (by simp [hmem])
      · obtain ⟨v, _, hpv⟩ := List.mem_map.mp hq
        rw [← hpv]
        exact hcm
    rw [buildTable]
    simp only [hbr]
    rw [ih _ hnd' hsome' haccfresh']
    rw [tableOf]
    rw [hinner]
    simp [List.append_assoc]

theorem buildTable_nums_nil (results : Results) :
    ∀ (cats : List String) (acc : Table Key),
      buildTable results cats [] acc = .ok acc := by
  intro cats
  induction cats with
  | nil => intro acc; rfl
  | cons c rest ih =>
    intro acc
    rw [buildTable]
    simp only [buildRow]
    exact ih acc

/-! Section: Error propagation: a failing statistic call is never swallowed -/

theorem kwVars_ok_calls (kr : List (List ℚ) → Option Stat) (df : DataFrame)
    (cat : String) (cs : List ℚ) :
    ∀ (nums : List String) (res r : Results), kwVars kr df cat cs nums res = .ok r →
      ∀ v ∈ nums, (kr (cs.map (fun c => groupVals df cat c v))).isSome := by
  intro nums
  induction nums with
  | nil => intro res r _ v hv; simp at hv
  | cons v rest ih =>
    intro res r h w hw
    rw [kwVars] at h
    cases hcall : kr (cs.map (fun c => groupVals df cat c v)) with
    | none =>
      rw [hcall] at h
      exact absurd h (by simp)
    | some st =>
      rw [hcall] at h
      rcases List.mem_cons.mp hw with hq | hq
      · subst hq
        rw [hcall]
        rfl
      · exact ih _ r h w hq

theorem kwVars_error (kr : List (List ℚ) → Option Stat) (df : DataFrame)
    (cat : String) (cs : List ℚ) :
    ∀ (nums : List String) (res : Results) (e : Err),
      kwVars kr df cat cs nums res = .error e → e = .statError := by
  intro nums
  induction nums with
  | nil => intro res e h; simp [kwVars] at h
  | cons v rest ih =>
    intro res e h
    rw [kwVars] at h
    cases hcall : kr (cs.map (fun c => groupVals df cat c v)) with
    | none =>
      rw [hcall] at h
      exact (Except.error.inj h).symm
    | some st =>
      rw [hcall] at h
      exact ih _ e h

theorem kwCats_ok_calls (kr : List (List ℚ) → Option Stat) (df : DataFrame) :
    ∀ (cats nums : List String) (res R : Results), kwCats kr df cats nums res = .ok R →
      ∀ c ∈ cats, 3 ≤ (colUnique df c).length →
      ∀ v ∈ nums, (kr ((colUnique df c).map (fun cv => groupVals df c cv v))).isSome := by
  intro cats
  induction cats with
  | nil => intro nums res R _ c hc; simp at hc
  | cons cat rest ih =>
    intro nums res R h c hc h3 v hv
    rw [kwCats] at h
    by_cases hcat3 : 3 ≤ (colUnique df cat).length
    · simp only [hcat3, if_true] at h
      cases hkv : kwVars kr df cat (colUnique df cat) nums res with
      | error e =>
        rw [hkv] at h
        exact absurd h (by simp)
      | ok r =>
        rw [hkv] at h
        rcases List.mem_cons.mp hc with hq | hq
        · subst hq
          exact kwVars_ok_calls kr df c (colUnique df c) nums res r hkv v hv
        · exact ih nums r R h c hq h3 v hv
    · simp only [hcat3, if_false] at h
      rcases List.mem_cons.mp hc with hq | hq
      · subst hq
        exact absurd h3 hcat3
      · exact ih nums res R h c hq h3 v hv

theorem kwCats_error (kr : List (List ℚ) → Option Stat) (df : DataFrame) :
    ∀ (cats nums : List String) (res : Results) (e : Err),
      kwCats kr df cats nums res = .error e → e = .statError := by
  intro cats
  induction cats with
  | nil => intro nums res e h; simp [kwCats] at h
  | cons cat rest ih =>
    intro nums res e h
    rw [kwCats] at h
    by_cases hcat3 : 3 ≤ (colUnique df cat).length
    · simp only [hcat3, if_true] at h
      cases hkv : kwVars kr df cat (colUnique df cat) nums res with
      | error e2 =>
        rw [hkv] at h
        have he : e2 = e := Except.error.inj h
        rw [← he]
        exact kwVars_error kr df cat (colUnique df cat) nums res e2 hkv
      | ok r =>
        rw [hkv] at h
        exact ih nums r e h
    · simp only [hcat3, if_false] at h
      exact ih nums res e h

theorem anovaVars_ok_calls (fow : List (List ℚ) → Option Stat) (data : DataFrame)
    (catv : String) :
    ∀ (nums : List String) (res r : List (String × Stat)),
      anovaVars fow data catv nums res = .ok r →
      ∀ v ∈ nums,
        (fow ((colUnique data catv).map (fun c => groupVals data catv c v))).isSome := by
  intro nums
  induction nums with
  | nil => intro res r _ v hv; simp at hv
  | cons v rest ih =>
    intro res r h w hw
    rw [anovaVars] at h
    cases hcall : fow ((colUnique data catv).map (fun c => groupVals data catv c v)) with
    | none =>
      rw [hcall] at h
      exact absurd h (by simp)
    | some st =>
      rw [hcall] at h
      rcases List.mem_cons.mp hw with hq | hq
      · subst hq
        rw [hcall]
        rfl
      · exact ih _ r h w hq

theorem anovaVars_error (fow : List (List ℚ) → Option Stat) (data : DataFrame)
    (catv : String) :
    ∀ (nums : List String) (res : List (String × Stat)) (e : Err),
      anovaVars fow data catv nums res = .error e → e = .statError := by
  intro nums
  induction nums with
  | nil => intro res e h; simp [anovaVars] at h
  | cons v rest ih =>
    intro res e h
    rw [anovaVars] at h
    cases hcall : fow ((colUnique data catv).map (fun c => groupVals data catv c v)) with
    | none =>
      rw [hcall] at h
      exact (Except.error.inj h).symm
    | some st =>
      rw [hcall] at h
      exact ih _ e h

theorem kwCats_none_eligible (kr : List (List ℚ) → Option Stat) (df : DataFrame) :
    ∀ (cats nums : List String) (res : Results),
      (∀ c ∈ cats, (colUnique df c).length < 3) →
      kwCats kr df cats nums res = .ok res := by
  intro cats
  induction cats with
  | nil => intro nums res _; rfl
  | cons cat rest ih =>
    intro nums res hall
    have h3 : ¬3 ≤ (colUnique df cat).length := by
      have := hall cat (by simp)
      omega
    rw [kwCats]
    simp only [h3, if_false]
    exact ih nums res (fun c hc => hall c (by simp [hc]))

/-! Section: Groups derived from observed category values are non-empty -/

theorem mem_uniqueAux : ∀ (l seen : List ℚ) (x : ℚ), x ∈ uniqueAux seen l → x ∈ l := by
  intro l
  induction l with
  | nil => intro seen x h; simp [uniqueAux] at h
  | cons y ys ih =>
    intro seen x h
    rw [uniqueAux] at h
    by_cases hy : y ∈ seen
    · simp only [hy, if_true] at h
      exact List.mem_cons_of_mem y (ih seen x h)
    · simp only [hy, if_false] at h
      rcases List.mem_cons.mp h with hq | hq
      · simp [hq]
      · exact List.mem_cons_of_mem y (ih _ x hq)

theorem groupVals_ne_nil (df : DataFrame) (f : String) (c : ℚ) (v : String)
    (hc : c ∈ colUnique df f) : groupVals df f c v ≠ [] := by
  have hcl : c ∈ df.map (fun r => rowVal r f) := mem_uniqueAux _ [] c hc
  obtain ⟨r, hr, hrv⟩ := List.mem_map.mp hcl
  intro hnil
  unfold groupVals at hnil
  have hmem : r ∈ df.filter (fun r => decide (rowVal r f = c)) :=
    List.mem_filter.mpr ⟨hr, by simp [hrv]⟩
  rw [List.map_eq_nil_iff.mp hnil] at hmem
  simp at hmem

/-! Section: Concrete instances used by the witnesses -/

/-- Always-succeeding stand-in for `scipy.stats.mannwhitneyu`. -/
def mwuConst : List ℚ → List ℚ → Option Stat := fun _ _ => some (1, 1)

/-- Always-succeeding stand-in for `scipy.stats.kruskal`. -/
def krConst : List (List ℚ) → Option Stat := fun _ => some (1, 1)

/-- Always-succeeding stand-in for `scipy.stats.f_oneway`. -/
def fowConst : List (List ℚ) → Option Stat := fun _ => some (1, 1)

/-- Always-raising stand-in for `scipy.stats.kruskal`. -/
def krFail : List (List ℚ) → Option Stat := fun _ => none

/-- Always-raising stand-in for `scipy.stats.f_oneway`. -/
def fowFail : List (List ℚ) → Option Stat := fun _ => none

/-- A dataset whose categorical field `g` has a single distinct value. -/
def dfOne : DataFrame := [[("g", 0), ("x", 1)], [("g", 0), ("x", 2)]]

/-- A dataset whose categorical field `g` has two distinct values. -/
def dfBin : DataFrame := [[("g", 0), ("x", 1)], [("g", 1), ("x", 2)]]

/-- A dataset with a three-valued field `a` and a two-valued field `b`. -/
def dfMix : DataFrame :=
  [[("a", 0), ("b", 0), ("x", 1)],
   [("a", 1), ("b", 1), ("x", 2)],
   [("a", 2), ("b", 0), ("x", 3)]]

/-- The styled table `mann_whitney_test` returns on `dfBin`. -/
def sBin : Styled Key := ⟨[(("g", "x"), some (1, 1))], [(("g", "x"), "")]⟩

/-- The results dict `mwCats` computes on `dfBin`. -/
def rBin : Results := [("g", [("x", (1, 1))])]

/-- The results dict `kwCats` computes on `dfMix` for field `a`. -/
def rMix : Results := [("a", [("x", (1, 1))])]

/-! Section: Claim C1 -/

/-- Claim C1 counterexample: on a dataset whose only categorical field has
one distinct value (so no field meets either cardinality precondition),
`mann_whitney_test` does not return an empty result table: it raises a
`KeyError` while building the table. -/
theorem claim1_counterexample :
    (colUnique dfOne "g").length = 1 ∧
    mann_whitney_test mwuConst dfOne ["g"] ["x"] = .error .keyError := by
  constructor
  · rfl
  · rfl

/-- Claim C1 (amended): when no categorical field meets the cardinality
precondition, `kruskal_wallis_test` returns the explicitly empty
DataFrame without raising; `mann_whitney_test`, by contrast, raises a
`KeyError` during result-table construction whenever the categorical and
numerical lists are non-empty, because the table comprehension indexes
`results[cat_var]` unconditionally. -/
theorem claim1_amended :
    (∀ (kr : List (List ℚ) → Option Stat) (df : DataFrame) (cats nums : List String),
      (∀ c ∈ cats, (colUnique df c).length < 3) →
      kruskal_wallis_test kr df cats nums = .ok .emptyDf) ∧
    (∀ (mwu : List ℚ → List ℚ → Option Stat) (df : DataFrame) (cats nums : List String),
      (∀ a b, (mwu a b).isSome) → cats ≠ [] → nums ≠ [] →
      (∀ c ∈ cats, (colUnique df c).length ≠ 2) →
      mann_whitney_test mwu df cats nums = .error .keyError) := by
  constructor
  · intro kr df cats nums hall
    have hkc := kwCats_none_eligible kr df cats nums [] hall
    unfold kruskal_wallis_test
    simp only [hkc]
    rfl
  · intro mwu df cats nums hm hc hn hall
    obtain ⟨c0, hc0⟩ := List.exists_mem_of_ne_nil cats hc
    have hpure := mwCats_pure mwu df cats nums [] hm
    have hcond : mwCond df c0 = false := by
      simp [mwCond, hall c0 hc0]
    have hfind : odFind (resFold (mwCond df) (mwF mwu df) cats nums []) c0 = none := by
      rw [resFold_find_cond_false (mwCond df) (mwF mwu df) nums c0 hcond cats []]
      rfl
    have hbt := buildTable_keyError (resFold (mwCond df) (mwF mwu df) cats nums [])
      nums c0 hn hfind cats [] hc0
    unfold mann_whitney_test
    simp only [hpure, hbt]

/-- Claim C1 witness: the amended claim at a concrete dataset with one
single-valued categorical field. -/
theorem claim1_witness :
    kruskal_wallis_test krConst dfOne ["g"] ["x"] = .ok .emptyDf ∧
    mann_whitney_test mwuConst dfOne ["g"] ["x"] = .error .keyError := by
  constructor
  · exact claim1_amended.1 krConst dfOne ["g"] ["x"] (by decide)
  · exact claim1_amended.2 mwuConst dfOne ["g"] ["x"] (fun a b => rfl)
      (by decide) (by decide) (by decide)

/-! Section: Claim C3 -/

/-- Claim C3: with a non-empty numerical list, `mann_whitney_test` raises
a `KeyError` whenever any supplied categorical field has a distinct-value
count other than two, and `kruskal_wallis_test` raises a `KeyError`
whenever one supplied field has at least three distinct values and
another has fewer, because the table comprehension indexes
`results[cat_var]` for every supplied field. -/
theorem claim3_keyerror :
    (∀ (mwu : List ℚ → List ℚ → Option Stat) (df : DataFrame) (cats nums : List String),
      (∀ a b, (mwu a b).isSome) → nums ≠ [] →
      (∃ c ∈ cats, (colUnique df c).length ≠ 2) →
      mann_whitney_test mwu df cats nums = .error .keyError) ∧
    (∀ (kr : List (List ℚ) → Option Stat) (df : DataFrame) (cats nums : List String),
      (∀ g, (kr g).isSome) → nums ≠ [] →
      (∃ c ∈ cats, 3 ≤ (colUnique df c).length) →
      (∃ c ∈ cats, (colUnique df c).length < 3) →
      kruskal_wallis_test kr df cats nums = .error .keyError) := by
  constructor
  · intro mwu df cats nums hm hn hex
    obtain ⟨c0, hc0, hcard⟩ := hex
    have hpure := mwCats_pure mwu df cats nums [] hm
    have hcond : mwCond df c0 = false := by
      simp [mwCond, hcard]
    have hfind : odFind (resFold (mwCond df) (mwF mwu df) cats nums []) c0 = none := by
      rw [resFold_find_cond_false (mwCond df) (mwF mwu df) nums c0 hcond cats []]
      rfl
    have hbt := buildTable_keyError (resFold (mwCond df) (mwF mwu df) cats nums [])
      nums c0 hn hfind cats [] hc0
    unfold mann_whitney_test
    simp only [hpure, hbt]
  · intro kr df cats nums hk hn hex3 hexlt
    obtain ⟨c1, hc1, h31⟩ := hex3
    obtain ⟨c2, hc2, h32⟩ := hexlt
    have hpure := kwCats_pure kr df cats nums [] hk
    have hcond1 : kwCond df c1 = true := by
      simp [kwCond, h31]
    have hsome := resFold_find_isSome (kwCond df) (kwF kr df) nums c1 hcond1 hn cats [] hc1
    have hne : ¬(resFold (kwCond df) (kwF kr df) cats nums []).isEmpty = true := by
      intro hemp
      rw [List.isEmpty_iff.mp hemp] at hsome
      simp [odFind] at hsome
    have hcond2 : kwCond df c2 = false := by
      simp only [kwCond, decide_eq_false_iff_not]
      omega
    have hfind2 : odFind (resFold (kwCond df) (kwF kr df) cats nums []) c2 = none := by
      rw [resFold_find_cond_false (kwCond df) (kwF kr df) nums c2 hcond2 cats []]
      rfl
    have hbt := buildTable_keyError (resFold (kwCond df) (kwF kr df) cats nums [])
      nums c2 hn hfind2 cats [] hc2
    unfold kruskal_wallis_test
    simp only [hpure]
    rw [if_neg hne]
    simp only [hbt]

/-- Claim C3 witness: the `KeyError` behaviour at a concrete dataset whose
field `a` has three distinct values and field `b` has two. -/
theorem claim3_witness :
    mann_whitney_test mwuConst dfMix ["a"] ["x"] = .error .keyError ∧
    kruskal_wallis_test krConst dfMix ["a", "b"] ["x"] = .error .keyError := by
  constructor
  · exact claim3_keyerror.1 mwuConst dfMix ["a"] ["x"] (fun a b => rfl) (by decide)
      ⟨"a", by decide, by decide⟩
  · exact claim3_keyerror.2 krConst dfMix ["a", "b"] ["x"] (fun g => rfl) (by decide)
      ⟨"a", by decide, by decide⟩ ⟨"b", by decide, by decide⟩

/-! Section: Claim C2 -/

theorem resFold_table_ok (cond : String → Bool) (f : String → String → Stat)
    (cats nums : List String) (t : Table Key)
    (hndc : cats.Nodup) (hndn : nums.Nodup) (hn : nums ≠ [])
    (hbt : buildTable (resFold cond f cats nums []) cats nums [] = .ok t) :
    t.map Prod.fst = crossPairs (cats.filter cond) nums ∧
    ∀ p ∈ t, p.2.isSome := by
  have hall : ∀ c ∈ cats, cond c = true := by
    intro c hc
    by_contra hcond
    have hcond' : cond c = false := by
      cases hcc : cond c
      · rfl
      · exact absurd hcc hcond
    have hfind : odFind (resFold cond f cats nums []) c = none := by
      rw [resFold_find_cond_false cond f nums c hcond' cats []]
      rfl
    rw [buildTable_keyError (resFold cond f cats nums []) nums c hn hfind cats [] hc] at hbt
    exact Except.noConfusion hbt
  have hsome : ∀ c ∈ cats, (odFind (resFold cond f cats nums []) c).isSome := by
    intro c hc
    exact resFold_find_isSome cond f nums c (hall c hc) hn cats [] hc
  have hok := buildTable_ok (resFold cond f cats nums []) nums hndn cats [] hndc hsome
    (fun p hp => absurd hp (List.not_mem_nil p))
  rw [hok] at hbt
  have ht : t = tableOf (resFold cond f cats nums []) cats nums := by
    have hinj := Except.ok.inj hbt
    rw [List.nil_append] at hinj
    exact hinj.symm
  constructor
  · rw [ht, tableOf_map_fst, List.filter_eq_self.mpr hall]
  · intro p hp
    rw [ht] at hp
    obtain ⟨c, hc, v, hv, hpv⟩ := tableOf_mem (resFold cond f cats nums []) nums cats p hp
    have hfind : odFind (resFold cond f cats nums []) c = some (innerFold (f c) nums []) :=
      resFold_find_some cond f nums c (hall c hc) hn cats [] hndc hc rfl
    rw [hpv]
    simp only [hfind, Option.getD_some]
    rw [innerFold_find]
    simp [hv]

/-- Claim C2: whenever either rank test returns a styled result table, the
table's row keys are exactly the evaluated field pairs — the eligible
categorical fields in caller order, nested by the numerical fields in
caller order — and no row is null-filled. -/
theorem claim2_rows :
    (∀ (mwu : List ℚ → List ℚ → Option Stat) (df : DataFrame) (cats nums : List String)
      (s : Styled Key),
      (∀ a b, (mwu a b).isSome) → cats.Nodup → nums.Nodup →
      mann_whitney_test mwu df cats nums = .ok s →
      s.data.map Prod.fst = crossPairs (cats.filter (mwCond df)) nums ∧
      ∀ p ∈ s.data, p.2.isSome) ∧
    (∀ (kr : List (List ℚ) → Option Stat) (df : DataFrame) (cats nums : List String)
      (ks : Styled Key),
      (∀ g, (kr g).isSome) → cats.Nodup → nums.Nodup →
      kruskal_wallis_test kr df cats nums = .ok (.styled ks) →
      ks.data.map Prod.fst = crossPairs (cats.filter (kwCond df)) nums ∧
      ∀ p ∈ ks.data, p.2.isSome) := by
  constructor
  · intro mwu df cats nums s hm hndc hndn h
    have hpure := mwCats_pure mwu df cats nums [] hm
    unfold mann_whitney_test at h
    simp only [hpure] at h
    by_cases hn : nums = []
    · subst hn
      simp only [buildTable_nums_nil] at h
      have hs : styleTable ([] : Table Key) = s := Except.ok.inj h
      rw [← hs]
      simp [styleTable, crossPairs_nums_nil]
    · cases hbt : buildTable (resFold (mwCond df) (mwF mwu df) cats nums []) cats nums [] with
      | error e =>
        simp only [hbt] at h
        exact Except.noConfusion h
      | ok t =>
        simp only [hbt] at h
        have hs : styleTable t = s := Except.ok.inj h
        rw [← hs]
        exact resFold_table_ok (mwCond df) (mwF mwu df) cats nums t hndc hndn hn hbt
  · intro kr df cats nums ks hk hndc hndn h
    have hpure := kwCats_pure kr df cats nums [] hk
    unfold kruskal_wallis_test at h
    simp only [hpure] at h
    by_cases hemp : (resFold (kwCond df) (kwF kr df) cats nums []).isEmpty = true
    · rw [if_pos hemp] at h
      exact KWResult.noConfusion (Except.ok.inj h)
    · rw [if_neg hemp] at h
      have hn : nums ≠ [] := by
        intro hn0
        subst hn0
        rw [resFold_nums_nil] at hemp
        simp at hemp
      cases hbt : buildTable (resFold (kwCond df) (kwF kr df) cats nums []) cats nums [] with
      | error e =>
        simp only [hbt] at h
        exact Except.noConfusion h
      | ok t =>
        simp only [hbt] at h
        have hks : KWResult.styled (styleTable t) = KWResult.styled ks := Except.ok.inj h
        have hks2 : styleTable t = ks := by
          injection hks
        rw [← hks2]
        exact resFold_table_ok (kwCond df) (kwF kr df) cats nums t hndc hndn hn hbt

/-- Claim C2 witness: the row-set equality at a concrete binary dataset. -/
theorem claim2_witness :
    sBin.data.map Prod.fst = crossPairs (["g"].filter (mwCond dfBin)) ["x"] :=
  (claim2_rows.1 mwuConst dfBin ["g"] ["x"] sBin (fun a b => rfl) (by decide) (by decide)
    (by rfl)).1

/-! Section: Claim C4 -/

/-- Claim C4: `mann_whitney_test` stores a Mann–Whitney result for a field
pair exactly when the categorical field has two distinct values, and the
stored value is the two-sided call on the pair's two groups; fields with
any other cardinality get no entry. -/
theorem claim4_pairwise_gate (mwu : List ℚ → List ℚ → Option Stat) (df : DataFrame)
    (cats nums : List String) (c v : String) (R : Results)
    (hm : ∀ a b, (mwu a b).isSome) (hndc : cats.Nodup)
    (hc : c ∈ cats) (hv : v ∈ nums)
    (hR : mwCats mwu df cats nums [] = .ok R) :
    (((odFind R c).bind (fun inner => odFind inner v)).isSome ↔
      (colUnique df c).length = 2) ∧
    (∀ c1 c2, colUnique df c = [c1, c2] →
      (odFind R c).bind (fun inner => odFind inner v)
        = some ((mwu (groupVals df c c1 v) (groupVals df c c2 v)).getD (0, 0))) := by
  have hn : nums ≠ [] := List.ne_nil_of_mem hv
  have hpure := mwCats_pure mwu df cats nums [] hm
  rw [hR] at hpure
  have hReq : R = resFold (mwCond df) (mwF mwu df) cats nums [] := Except.ok.inj hpure
  subst hReq
  constructor
  · constructor
    · intro hsome
      by_contra h2
      have hcond : mwCond df c = false := by simp [mwCond, h2]
      rw [resFold_find_cond_false (mwCond df) (mwF mwu df) nums c hcond cats []] at hsome
      simp [odFind] at hsome
    · intro h2
      have hcond : mwCond df c = true := by simp [mwCond, h2]
      rw [resFold_find_some (mwCond df) (mwF mwu df) nums c hcond hn cats [] hndc hc rfl]
      simp only [Option.some_bind]
      rw [innerFold_find]
      simp [hv]
  · intro c1 c2 hcu
    have h2 : (colUnique df c).length = 2 := by rw [hcu]; rfl
    have hcond : mwCond df c = true := by simp [mwCond, h2]
    have hfv : mwF mwu df c v
        = (mwu (groupVals df c c1 v) (groupVals df c c2 v)).getD (0, 0) := by
      unfold mwF
      rw [hcu]
    rw [resFold_find_some (mwCond df) (mwF mwu df) nums c hcond hn cats [] hndc hc rfl]
    simp only [Option.some_bind]
    rw [innerFold_find]
    simp [hv, hfv]

/-- Claim C4 witness: the gate and the stored value at a concrete binary
dataset. -/
theorem claim4_witness :
    (((odFind rBin "g").bind (fun inner => odFind inner "x")).isSome ↔
      (colUnique dfBin "g").length = 2) ∧
    (odFind rBin "g").bind (fun inner => odFind inner "x")
      = some ((mwuConst (groupVals dfBin "g" 0 "x") (groupVals dfBin "g" 1 "x")).getD (0, 0)) := by
  obtain ⟨h1, h2⟩ := claim4_pairwise_gate mwuConst dfBin ["g"] ["x"] "g" "x" rBin
    (fun a b => rfl) (by decide) (by decide) (by decide) (by rfl)
  exact ⟨h1, h2 0 1 (by decide)⟩

/-! Section: Claim C5 -/

/-- Claim C5: `kruskal_wallis_test` stores a Kruskal–Wallis result for a
categorical field exactly when the field has at least three distinct
values; for such a field the inner dict has exactly one entry per
supplied numerical field, in caller order, holding the call on all the
field's groups, and a field with fewer distinct values has no entry. -/
theorem claim5_omnibus_gate (kr : List (List ℚ) → Option Stat) (df : DataFrame)
    (cats nums : List String) (c : String) (R : Results)
    (hk : ∀ g, (kr g).isSome) (hndc : cats.Nodup) (hndn : nums.Nodup)
    (hc : c ∈ cats)
    (hR : kwCats kr df cats nums [] = .ok R) :
    (3 ≤ (colUnique df c).length → nums ≠ [] →
      (odFind R c).isSome ∧
      ((odFind R c).getD []).map Prod.fst = nums ∧
      ∀ v ∈ nums, odFind ((odFind R c).getD []) v
        = some ((kr ((colUnique df c).map (fun cv => groupVals df c cv v))).getD (0, 0))) ∧
    ((colUnique df c).length < 3 → odFind R c = none) := by
  have hpure := kwCats_pure kr df cats nums [] hk
  rw [hR] at hpure
  have hReq : R = resFold (kwCond df) (kwF kr df) cats nums [] := Except.ok.inj hpure
  subst hReq
  constructor
  · intro h3 hn
    have hcond : kwCond df c = true := by simp [kwCond, h3]
    have hfind := resFold_find_some (kwCond df) (kwF kr df) nums c hcond hn cats [] hndc hc rfl
    rw [hfind]
    refine ⟨rfl, ?_, ?_⟩
    · have happ := innerFold_append (kwF kr df c) nums [] hndn (fun v hv => rfl)
      simp only [Option.getD_some]
      rw [happ]
      simp only [List.nil_append, List.map_map]
      have hid : (Prod.fst ∘ fun v => (v, kwF kr df c v)) = fun v => v := by
        funext v
        rfl
      rw [hid]
      simp
    · intro v hv
      simp only [Option.getD_some]
      rw [innerFold_find]
      simp only [hv, if_true]
      rfl
  · intro h3
    have hcond : kwCond df c = false := by
      simp only [kwCond, decide_eq_false_iff_not]
      omega
    rw [resFold_find_cond_false (kwCond df) (kwF kr df) nums c hcond cats []]
    rfl

/-- Claim C5 witness: the omnibus gate at a concrete three-valued field. -/
theorem claim5_witness :
    (odFind rMix "a").isSome ∧
    ((odFind rMix "a").getD []).map Prod.fst = ["x"] ∧
    odFind ((odFind rMix "a").getD []) "x"
      = some ((krConst ((colUnique dfMix "a").map
          (fun cv => groupVals dfMix "a" cv "x"))).getD (0, 0)) := by
  obtain ⟨h1, h2, h3⟩ := (claim5_omnibus_gate krConst dfMix ["a"] ["x"] "a" rMix
    (fun g => rfl) (by decide) (by decide) (by decide) (by rfl)).1 (by decide) (by decide)
  exact ⟨h1, h2, h3 "x" (by decide)⟩

/-! Section: Claim C6 -/

/-- Claim C6: when the single categorical field yields at least two groups
(and the external `f_oneway` succeeds on any such group list), `anova`
succeeds and its table has exactly one row per supplied numerical field,
in caller order, regardless of the field's cardinality. -/
theorem claim6_anova_rows (fow : List (List ℚ) → Option Stat) (data : DataFrame)
    (nums : List String) (catv : String)
    (hndn : nums.Nodup)
    (h2 : 2 ≤ (colUnique data catv).length)
    (hf : ∀ gs : List (List ℚ), 2 ≤ gs.length → (∀ g ∈ gs, g ≠ []) → (fow gs).isSome) :
    anova fow data nums catv
      = .ok (styleTable ((innerFold (aF fow data catv) nums []).map
          (fun p => (p.1, some p.2)))) ∧
    ((innerFold (aF fow data catv) nums []).map
        (fun p => (p.1, some p.2))).map Prod.fst = nums ∧
    ∀ p ∈ (innerFold (aF fow data catv) nums []).map (fun p => (p.1, some p.2)),
      p.2.isSome := by
  have hcalls : ∀ v ∈ nums,
      (fow ((colUnique data catv).map (fun c => groupVals data catv c v))).isSome := by
    intro v hv
    apply hf
    · rw [List.length_map]
      exact h2
    · intro g hg
      obtain ⟨cv, hcv, hgv⟩ := List.mem_map.mp hg
      rw [← hgv]
      exact groupVals_ne_nil data catv cv v hcv
  have hpure := anovaVars_pure fow data catv nums [] hcalls
  refine ⟨?_, ?_, ?_⟩
  · unfold anova
    simp only [hpure]
  · have happ := innerFold_append (aF fow data catv) nums [] hndn (fun v hv => rfl)
    rw [happ]
    simp only [List.nil_append, List.map_map]
    have hid : (Prod.fst ∘ (fun p : String × Stat => (p.1, some p.2))
        ∘ fun v => (v, aF fow data catv v)) = fun v => v := by
      funext v
      rfl
    rw [hid]
    simp
  · intro p hp
    obtain ⟨q, hq, hpq⟩ := List.mem_map.mp hp
    rw [← hpq]
    rfl

/-- Claim C6 witness: one row per numerical field at a concrete
three-valued grouping field. -/
theorem claim6_witness :
    anova fowConst dfMix ["x"] "a"
      = .ok (styleTable ((innerFold (aF fowConst dfMix "a") ["x"] []).map
          (fun p => (p.1, some p.2)))) ∧
    ((innerFold (aF fowConst dfMix "a") ["x"] []).map
        (fun p => (p.1, some p.2))).map Prod.fst = ["x"] := by
  obtain ⟨h1, h2, h3⟩ := claim6_anova_rows fowConst dfMix ["x"] "a" (by decide) (by decide)
    (fun gs hl hne => rfl)
  exact ⟨h1, h2⟩

/-! Section: Claim C7 -/

/-- Claim C7: a failing statistic call on an evaluated pair's groups is
never silently skipped — the failure aborts the whole run of
`kruskal_wallis_test` / `anova` and surfaces to the caller. -/
theorem claim7_failure_propagates :
    (∀ (kr : List (List ℚ) → Option Stat) (df : DataFrame) (cats nums : List String)
      (c v : String),
      c ∈ cats → 3 ≤ (colUnique df c).length → v ∈ nums →
      kr ((colUnique df c).map (fun cv => groupVals df c cv v)) = none →
      kruskal_wallis_test kr df cats nums = .error .statError) ∧
    (∀ (fow : List (List ℚ) → Option Stat) (data : DataFrame) (nums : List String)
      (catv v : String),
      v ∈ nums →
      fow ((colUnique data catv).map (fun cv => groupVals data catv cv v)) = none →
      anova fow data nums catv = .error .statError) := by
  constructor
  · intro kr df cats nums c v hc h3 hv hfail
    cases hkc : kwCats kr df cats nums [] with
    | ok R =>
      have hcall := kwCats_ok_calls kr df cats nums [] R hkc c hc h3 v hv
      rw [hfail] at hcall
      simp at hcall
    | error e =>
      have he := kwCats_error kr df cats nums [] e hkc
      unfold kruskal_wallis_test
      simp only [hkc]
      rw [he]
  · intro fow data nums catv v hv hfail
    cases hav : anovaVars fow data catv nums [] with
    | ok r =>
      have hcall := anovaVars_ok_calls fow data catv nums [] r hav v hv
      rw [hfail] at hcall
      simp at hcall
    | error e =>
      have he := anovaVars_error fow data catv nums [] e hav
      unfold anova
      simp only [hav]
      rw [he]

/-- Claim C7 witness: an always-raising statistic call aborts both engines
at a concrete dataset. -/
theorem claim7_witness :
    kruskal_wallis_test krFail dfMix ["a"] ["x"] = .error .statError ∧
    anova fowFail dfMix ["x"] "a" = .error .statError := by
  constructor
  · exact claim7_failure_propagates.1 krFail dfMix ["a"] ["x"] "a" "x"
      (by decide) (by decide) (by decide) rfl
  · exact claim7_failure_propagates.2 fowFail dfMix ["x"] "a" "x" (by decide) rfl

/-! Section: Claim C8 -/

/-- Claim C8: the threshold equals 0.05 = 1/20, and the significance
annotation marks a cell yellow exactly when it is the p-value cell of a
row whose p-value is strictly below that fixed threshold; every other
cell keeps the empty style. -/
theorem claim8_significance :
    pointZeroFive = 1 / 20 ∧
    ∀ (κ : Type) [DecidableEq κ] (t : Table κ) (k : κ) (col : String),
      (cellStyle t k col = "background-color: yellow" ↔
        (col = "p-value" ∧
          ∃ st p, odFind t k = some (some (st, p)) ∧ p < pointZeroFive)) ∧
      (cellStyle t k col = "background-color: yellow" ∨ cellStyle t k col = "") := by
  refine ⟨pointZeroFive_eq, ?_⟩
  intro κ instK t k col
  by_cases hcol : col = "p-value"
  · subst hcol
    cases hfind : odFind t k with
    | none =>
      refine ⟨?_, Or.inr ?_⟩
      · simp [cellStyle, hfind]
      · simp [cellStyle, hfind]
    | some vOpt =>
      cases vOpt with
      | none =>
        refine ⟨?_, Or.inr ?_⟩
        · simp [cellStyle, rowStyle, hfind]
        · simp [cellStyle, rowStyle, hfind]
      | some sp =>
        obtain ⟨st, p⟩ := sp
        refine ⟨?_, ?_⟩
        · constructor
          · intro hy
            refine ⟨rfl, st, p, rfl, ?_⟩
            by_contra hplt
            have hempty : cellStyle t k "p-value" = "" := by
              simp [cellStyle, rowStyle, highlight_significant, hfind, hplt]
            rw [hempty] at hy
            exact absurd hy (by decide)
          · rintro ⟨-, st2, p2, hsome, hlt⟩
            have hpq : (st, p) = (st2, p2) := Option.some.inj (Option.some.inj hsome)
            have hpp : p = p2 := congrArg Prod.snd hpq
            have hplt : p < pointZeroFive := hpp ▸ hlt
            simp [cellStyle, rowStyle, highlight_significant, hfind, hplt]
        · by_cases hp : p < pointZeroFive
          · exact Or.inl (by simp [cellStyle, rowStyle, highlight_significant, hfind, hp])
          · exact Or.inr (by simp [cellStyle, rowStyle, highlight_significant, hfind, hp])
  · refine ⟨?_, Or.inr ?_⟩
    · simp [cellStyle, hcol]
    · simp [cellStyle, hcol]

/-- The rational value 0.01 in lowest terms, a significant p-value. -/
def pSig : ℚ := ⟨1, 100, by decide, by decide⟩

/-- A one-row table whose p-value is significant. -/
def tYes : Table Key := [(("g", "x"), some (3, pSig))]

/-- Claim C8 witness: the annotation at a concrete significant cell. -/
theorem claim8_witness :
    cellStyle tYes ("g", "x") "p-value" = "background-color: yellow" :=
  ((claim8_significance.2 Key tYes ("g", "x") "p-value").1).mpr
    ⟨rfl, ⟨3, pSig, by decide, by decide⟩⟩

/-! Section: Claim C9 -/

/-- Claim C9: the engines are pure functions of the immutable input
dataset (the source only reads `df` through boolean-mask selections), and
the annotation step changes no numeric entry — every successful result is
exactly the annotation of its own unmodified data table. -/
theorem claim9_frame :
    (∀ (κ : Type) (t : Table κ), (styleTable t).data = t) ∧
    (∀ (mwu : List ℚ → List ℚ → Option Stat) (df : DataFrame) (cats nums : List String)
      (s : Styled Key),
      mann_whitney_test mwu df cats nums = .ok s → s = styleTable s.data) ∧
    (∀ (kr : List (List ℚ) → Option Stat) (df : DataFrame) (cats nums : List String)
      (ks : Styled Key),
      kruskal_wallis_test kr df cats nums = .ok (.styled ks) → ks = styleTable ks.data) ∧
    (∀ (fow : List (List ℚ) → Option Stat) (data : DataFrame) (nums : List String)
      (catv : String) (s : Styled String),
      anova fow data nums catv = .ok s → s = styleTable s.data) := by
  refine ⟨fun κ t => rfl, ?_, ?_, ?_⟩
  · intro mwu df cats nums s h
    unfold mann_whitney_test at h
    cases hmc : mwCats mwu df cats nums [] with
    | error e =>
      simp only [hmc] at h
      exact Except.noConfusion h
    | ok results =>
      simp only [hmc] at h
      cases hbt : buildTable results cats nums [] with
      | error e =>
        simp only [hbt] at h
        exact Except.noConfusion h
      | ok t =>
        simp only [hbt] at h
        have hs : styleTable t = s := Except.ok.inj h
        rw [← hs]
        rfl
  · intro kr df cats nums ks h
    unfold kruskal_wallis_test at h
    cases hkc : kwCats kr df cats nums [] with
    | error e =>
      simp only [hkc] at h
      exact Except.noConfusion h
    | ok results =>
      simp only [hkc] at h
      by_cases hemp : results.isEmpty = true
      · rw [if_pos hemp] at h
        exact KWResult.noConfusion (Except.ok.inj h)
      · rw [if_neg hemp] at h
        cases hbt : buildTable results cats nums [] with
        | error e =>
          simp only [hbt] at h
          exact Except.noConfusion h
        | ok t =>
          simp only [hbt] at h
          have hks : KWResult.styled (styleTable t) = KWResult.styled ks := Except.ok.inj h
          have hks2 : styleTable t = ks := by
            injection hks
          rw [← hks2]
          rfl
  · intro fow data nums catv s h
    unfold anova at h
    cases hav : anovaVars fow data catv nums [] with
    | error e =>
      simp only [hav] at h
      exact Except.noConfusion h
    | ok r =>
      simp only [hav] at h
      have hs := Except.ok.inj h
      rw [← hs]
      rfl

/-- Claim C9 witness: the frame property at a concrete successful run. -/
theorem claim9_witness : sBin = styleTable sBin.data :=
  claim9_frame.2.1 mwuConst dfBin ["g"] ["x"] sBin (by rfl)

end NPStat
